import Mathlib

/-!
# UserPage: query pipeline and selection / CRUD state machine

A shallow embedding of `src/components/pages/UserPage.jsx`.

* JavaScript values that can sit in a record field are `JsValue`; numbers are
  integers (identifiers), strings are sequences of characters.
* `String.prototype.toLowerCase`, the Unicode case mapping of the language, is
  the parameter `toLowerCase` of the text filter; the one fact used about it is
  that on ASCII text it folds the letters `A`-`Z` (`FoldsAscii`).
  `String.prototype.includes` is a substring search.
* A handler that throws (`TypeError`) is modelled by `Except`.
* The confirmation dialog (`Swal.fire`) is modelled by its decision
  `isConfirmed`, supplied as an argument; dialogs shown and toasts emitted are
  returned as a list of `Effect`s.
-/

namespace UserPage

/-! ## JavaScript values and strings -/

/-- The JavaScript values a record property can evaluate to. -/
inductive JsValue where
  | undefined
  | number (n : Int)
  | string (s : String)
  deriving DecidableEq, Repr

/-- Errors thrown while rendering. -/
inductive JsError where
  | typeError
  deriving DecidableEq, Repr

instance {ε α : Type} [DecidableEq ε] [DecidableEq α] : DecidableEq (Except ε α)
  | .ok a, .ok b => if h : a = b then isTrue (by rw [h]) else isFalse (fun h2 => h (by cases h2; rfl))
  | .error a, .error b =>
    if h : a = b then isTrue (by rw [h]) else isFalse (fun h2 => h (by cases h2; rfl))
  | .ok _, .error _ => isFalse (fun h => by cases h)
  | .error _, .ok _ => isFalse (fun h => by cases h)

/-- ASCII case folding: the letters `A`-`Z` become `a`-`z`, every other
character is kept. This is what `String.prototype.toLowerCase` does on ASCII
text. -/
def asciiLower (s : String) : String :=
  ⟨s.data.map Char.toLower⟩

/-- Substring search on character lists: does `pat` occur in `txt` starting at
some position? -/
def includesChars (pat : List Char) : List Char → Bool
  | [] => pat.isPrefixOf []
  | c :: cs => pat.isPrefixOf (c :: cs) || includesChars pat cs

/-- Model of `s.includes(search)`. -/
def includes (s search : String) : Bool :=
  includesChars search.data s.data

/-- Model of `value.toLowerCase()` on an arbitrary value: only strings have the
method, anything else throws a `TypeError`. The case mapping of strings is the
parameter `toLowerCase`. -/
def JsValue.toLowerCase (toLowerCase : String → String) : JsValue → Except JsError String
  | .string s => .ok (toLowerCase s)
  | _ => .error .typeError

/-- Template-literal conversion of a value to a string. -/
def JsValue.toText : JsValue → String
  | .undefined => "undefined"
  | .number n => toString n
  | .string s => s

/-! ## Records -/

/-- One user record of the mock data set. -/
structure User where
  userId : JsValue
  image : JsValue
  username : String
  role : String
  status : String
  created : String
  deriving DecidableEq, Repr

/-- Property access `user[key]`; a key that names none of the record's
properties evaluates to `undefined`. -/
def User.get (user : User) (key : String) : JsValue :=
  if key = "userId" then user.userId
  else if key = "image" then user.image
  else if key = "username" then .string user.username
  else if key = "role" then .string user.role
  else if key = "status" then .string user.status
  else if key = "created" then .string user.created
  else .undefined

/-! ## Query pipeline: text filter -/

/-- Model of `Array.prototype.filter` with a callback that may throw. -/
def filterE {α ε : Type} (p : α → Except ε Bool) : List α → Except ε (List α)
  | [] => .ok []
  | x :: xs =>
    match p x with
    | .error e => .error e
    | .ok b =>
      match filterE p xs with
      | .error e => .error e
      | .ok r => .ok (if b then x :: r else r)

/-- The callback of `filteredUsers`; `toLowerCase` is the case mapping of
strings. -/
def searchMatches (toLowerCase : String → String)
    (debouncedSearchTerm searchCategory : String) (user : User) : Except JsError Bool :=
  if searchCategory = "user" then
    .ok (includes (toLowerCase user.username) (toLowerCase debouncedSearchTerm) ||
      includes (toLowerCase user.role) (toLowerCase debouncedSearchTerm) ||
      includes (toLowerCase user.status) (toLowerCase debouncedSearchTerm) ||
      includes (toLowerCase user.created) (toLowerCase debouncedSearchTerm))
  else
    match (user.get searchCategory).toLowerCase toLowerCase with
    | .error e => .error e
    | .ok lowered => .ok (includes lowered (toLowerCase debouncedSearchTerm))

/-- Model of `filteredUsers`. -/
def filteredUsers (toLowerCase : String → String)
    (debouncedSearchTerm searchCategory : String) (users : List User) :
    Except JsError (List User) :=
  filterE (searchMatches toLowerCase debouncedSearchTerm searchCategory) users

/-! ## Query pipeline: attribute filter -/

/-- The `filter` state: role and status selectors, `""` meaning no constraint. -/
structure Filter where
  role : String
  status : String
  deriving DecidableEq, Repr

/-- Model of `filteredByRoleAndStatus`; a non-empty string is truthy. -/
def filteredByRoleAndStatus (filter : Filter) (filteredUsers : List User) : List User :=
  filteredUsers.filter fun user =>
    (if filter.role ≠ "" then decide (user.role = filter.role) else true) &&
    (if filter.status ≠ "" then decide (user.status = filter.status) else true)

/-! ## Query pipeline: sort -/

/-- Lexicographic comparison of two strings by character code, the order the
relational operators use on two strings (for characters of the basic
multilingual plane the character code is the UTF-16 code unit). -/
def strLt : List Char → List Char → Bool
  | [], [] => false
  | [], _ :: _ => true
  | _ :: _, [] => false
  | a :: as, b :: bs =>
    if a.toNat < b.toNat then true
    else if b.toNat < a.toNat then false
    else strLt as bs

/-- Numeric conversion applied by the relational operators to an operand when
the operands are not both strings; `none` stands for `NaN`. The conversion of a
string to a number is the parameter `stringToNumber`. -/
def toNumeric (stringToNumber : String → Option Int) : JsValue → Option Int
  | .undefined => none
  | .number n => some n
  | .string s => stringToNumber s

/-- The relational operator `x < y`; `x > y` is `jsLt y x`. -/
def jsLt (stringToNumber : String → Option Int) : JsValue → JsValue → Bool
  | .string a, .string b => strLt a.data b.data
  | x, y =>
    match toNumeric stringToNumber x, toNumeric stringToNumber y with
    | some m, some n => decide (m < n)
    | _, _ => false

/-- The `sortConfig` state. -/
structure SortConfig where
  key : String
  direction : String
  deriving DecidableEq, Repr

/-- The comparator passed to `sort` in `sortedUsers`. -/
def sortComparator (stringToNumber : String → Option Int) (sortConfig : SortConfig)
    (a b : User) : Int :=
  if jsLt stringToNumber (a.get sortConfig.key) (b.get sortConfig.key) then
    (if sortConfig.direction = "asc" then -1 else 1)
  else if jsLt stringToNumber (b.get sortConfig.key) (a.get sortConfig.key) then
    (if sortConfig.direction = "asc" then 1 else -1)
  else 0

/-- Insertion of `x` in front of an already sorted list: `x` moves right past
every element the comparator places before it (`comparator x y > 0`). -/
def insertSorted {α : Type} (comparator : α → α → Int) (x : α) : List α → List α
  | [] => [x]
  | y :: ys =>
    if comparator x y > 0 then y :: insertSorted comparator x ys
    else x :: y :: ys

/-- Model of `Array.prototype.sort(comparator)`. The language fixes the result
for a consistent comparator (sorted and stable) and leaves the sequence of
comparator calls to the engine; the model is a stable insertion sort, and
`sortedUsers_unique` shows that no other procedure could return anything else
on mutually comparable keys. -/
def arraySort {α : Type} (comparator : α → α → Int) : List α → List α
  | [] => []
  | x :: xs => insertSorted comparator x (arraySort comparator xs)

/-- Model of `sortedUsers`. -/
def sortedUsers (stringToNumber : String → Option Int) (sortConfig : SortConfig)
    (filteredByRoleAndStatus : List User) : List User :=
  arraySort (sortComparator stringToNumber sortConfig) filteredByRoleAndStatus

/-! ## Query pipeline: pagination -/

/-- Model of `Array.prototype.slice(start, end)` on integer arguments: a negative index
counts from the end, both indices are clamped to the array. -/
def slice {α : Type} (xs : List α) (start stop : Int) : List α :=
  let len : Int := xs.length
  let k : Int := if start < 0 then max (len + start) 0 else min start len
  let final : Int := if stop < 0 then max (len + stop) 0 else min stop len
  (xs.drop k.toNat).take (final - k).toNat

/-- The constant `rowsPerPage`. -/
def rowsPerPage : Nat := 5

/-- Model of `paginatedUsers`, for a given page size. -/
def paginatedUsers {α : Type} (rowsPerPage : Nat) (currentPage : Int) (sortedUsers : List α) :
    List α :=
  slice sortedUsers ((currentPage - 1) * rowsPerPage) (currentPage * rowsPerPage)

/-- The page numbers of the pagination buttons,
`Array.from({ length: totalPages }, (_, i) => i + 1)`. -/
def pageNumbers (totalPages : Nat) : List Int :=
  (List.range totalPages).map fun i => (i : Int) + 1

/-- Model of `totalPages = Math.ceil(sortedUsers.length / rowsPerPage)`, the quotient
taken exactly. -/
def totalPages {α : Type} (rowsPerPage : Nat) (sortedUsers : List α) : Nat :=
  ⌈(sortedUsers.length : ℚ) / (rowsPerPage : ℚ)⌉₊

/-! ## Component state and handlers -/

/-- The `selectedUser` state: `null` initially, otherwise the result of
`users.find`, which is `undefined` when nothing matches. -/
inductive SelectedUser where
  | null
  | undefined
  | user (u : User)
  deriving DecidableEq, Repr

/-- The state held by the component's hooks. -/
structure State where
  users : List User
  selectedRows : List JsValue
  searchTerm : String
  debouncedSearchTerm : String
  searchCategory : String
  filter : Filter
  isModalOpen : Bool
  selectedUser : SelectedUser
  sortConfig : SortConfig
  currentPage : Int
  deriving DecidableEq, Repr

/-- The state after the first render with `importedUsers` as seed. -/
def initialState (importedUsers : List User) : State :=
  { users := importedUsers
    selectedRows := []
    searchTerm := ""
    debouncedSearchTerm := ""
    searchCategory := "user"
    filter := { role := "", status := "" }
    isModalOpen := false
    selectedUser := .null
    sortConfig := { key := "userId", direction := "asc" }
    currentPage := 1 }

/-- What a handler does to the outside: a confirmation dialog shown, a toast
emitted. -/
inductive Effect where
  | swalFire (text : String)
  | toastSuccess (message : String)
  | toastError (message : String)
  deriving DecidableEq, Repr

/-- Model of `handleSort`. -/
def handleSort (s : State) (key : String) : State :=
  let direction :=
    if s.sortConfig.key = key ∧ s.sortConfig.direction = "asc" then "desc" else "asc"
  { s with sortConfig := { key := key, direction := direction } }

/-- Model of `handlePageChange`. -/
def handlePageChange (s : State) (page : Int) : State :=
  { s with currentPage := page }

/-- Model of `getRowDetail`: toggles one identifier in the selection. -/
def getRowDetail (s : State) (id : JsValue) : State :=
  let rows := s.selectedRows
  if rows.contains id then
    { s with selectedRows := rows.filter fun rowId => decide (rowId ≠ id) }
  else
    { s with selectedRows := rows ++ [id] }

/-- Model of `selectAllCheckbox`, `checked` being `event.target.checked`. -/
def selectAllCheckbox (s : State) (checked : Bool) : State :=
  let newSelectedRows : List JsValue :=
    if checked then s.users.foldl (fun rows user => rows ++ [user.userId]) [] else []
  { s with selectedRows := newSelectedRows }

/-- Model of `Array.prototype.find` as used by `handleEdit`. -/
def findUser (users : List User) (userId : JsValue) : SelectedUser :=
  match users.find? (fun user => decide (user.userId = userId)) with
  | some user => .user user
  | none => .undefined

/-- Model of `handleEdit`. -/
def handleEdit (s : State) (userId : JsValue) : State :=
  { s with selectedUser := findUser s.users userId, isModalOpen := true }

/-- Model of `handleDelete`, with the decision of the confirmation dialog. -/
def handleDelete (s : State) (userId : JsValue) (isConfirmed : Bool) : State × List Effect :=
  let dialog := Effect.swalFire
    ("You are about to delete user with ID " ++ userId.toText ++
      ". This action cannot be undone.")
  if isConfirmed then
    ({ s with users := s.users.filter fun user => decide (user.userId ≠ userId) },
      [dialog, .toastSuccess ("User with ID " ++ userId.toText ++ " deleted successfully")])
  else
    (s, [dialog])

/-- Model of `handleBulkDelete`, with the decision of the confirmation dialog (not
consulted when nothing is selected). -/
def handleBulkDelete (s : State) (isConfirmed : Bool) : State × List Effect :=
  if s.selectedRows.length = 0 then
    (s, [.toastError "No users selected for deletion"])
  else
    let dialog := Effect.swalFire
      ("You are about to delete " ++ toString s.selectedRows.length ++
        " user(s). This action cannot be undone.")
    if isConfirmed then
      ({ s with
          users := s.users.filter fun user => !s.selectedRows.contains user.userId
          selectedRows := [] },
        [dialog,
          .toastSuccess (toString s.selectedRows.length ++ " user(s) deleted successfully")])
    else
      (s, [dialog])

/-- The `onClose` callback given to the edit dialog. -/
def onClose (s : State) : State :=
  { s with isModalOpen := false }

/-- The `onSave` callback given to the edit dialog. -/
def onSave (s : State) (updatedUser : User) : State :=
  { s with
    users := s.users.map fun user =>
      if user.userId = updatedUser.userId then updatedUser else user
    isModalOpen := false }

/-- One user-triggered event of the component. -/
inductive Action where
  | toggle (id : JsValue)
  | selectAll (checked : Bool)
  | delete (userId : JsValue) (isConfirmed : Bool)
  | bulkDelete (isConfirmed : Bool)
  | edit (userId : JsValue)
  | save (updatedUser : User)
  | close
  | sort (key : String)
  | page (n : Int)

/-- The state after one event. -/
def step (s : State) : Action → State
  | .toggle id => getRowDetail s id
  | .selectAll checked => selectAllCheckbox s checked
  | .delete userId isConfirmed => (handleDelete s userId isConfirmed).1
  | .bulkDelete isConfirmed => (handleBulkDelete s isConfirmed).1
  | .edit userId => handleEdit s userId
  | .save updatedUser => onSave s updatedUser
  | .close => onClose s
  | .sort key => handleSort s key
  | .page n => handlePageChange s n

/-- The state after a sequence of events. -/
def run (s : State) (actions : List Action) : State :=
  actions.foldl step s

/-! ## Sample data -/

def alice : User :=
  { userId := .number 1, image := .undefined, username := "Alice", role := "Admin",
    status := "Active", created := "2024-01-01" }

def bob : User :=
  { userId := .number 2, image := .string "b.png", username := "bob", role := "User",
    status := "Inactive", created := "2024-02-01" }

def carol : User :=
  { userId := .number 3, image := .string "c.png", username := "carol", role := "Admin",
    status := "Active", created := "2024-03-01" }

/-- The state reached from the seed `[alice, bob]` by checking alice's row and
then deleting alice with the row's delete button, confirmed. -/
def afterSelectThenDelete : State :=
  run (initialState [alice, bob]) [.toggle (.number 1), .delete (.number 1) true]

/-! ## Specification-side notions -/

/-- The lower-cased `field` contains the lower-cased `term` as a substring,
lower-casing being the case mapping `toLowerCase`. -/
def ContainsCI (toLowerCase : String → String) (field term : String) : Prop :=
  (toLowerCase term).data <:+: (toLowerCase field).data

instance (toLowerCase : String → String) (field term : String) :
    Decidable (ContainsCI toLowerCase field term) :=
  inferInstanceAs (Decidable ((toLowerCase term).data <:+: (toLowerCase field).data))

/-- The record's relevant field(s) contain the search term after lower-casing:
any of username, role, status, created for the category `"user"`, otherwise
the field named by the category. -/
def Relevant (toLowerCase : String → String) (searchCategory term : String)
    (user : User) : Prop :=
  if searchCategory = "user" then
    ContainsCI toLowerCase user.username term ∨ ContainsCI toLowerCase user.role term ∨
      ContainsCI toLowerCase user.status term ∨ ContainsCI toLowerCase user.created term
  else
    match user.get searchCategory with
    | .string s => ContainsCI toLowerCase s term
    | _ => False

instance (toLowerCase : String → String) (searchCategory term : String) (user : User) :
    Decidable (Relevant toLowerCase searchCategory term user) :=
  if h : searchCategory = "user" then
    decidable_of_iff
      (ContainsCI toLowerCase user.username term ∨ ContainsCI toLowerCase user.role term ∨
        ContainsCI toLowerCase user.status term ∨ ContainsCI toLowerCase user.created term)
      (by simp [Relevant, h])
  else
    match hg : user.get searchCategory with
    | .string s =>
      decidable_of_iff (ContainsCI toLowerCase s term) (by simp [Relevant, h, hg])
    | .undefined => isFalse (by simp [Relevant, h, hg])
    | .number _ => isFalse (by simp [Relevant, h, hg])

/-- The text consists of ASCII characters. -/
def IsAscii (s : String) : Prop :=
  ∀ c ∈ s.data, c.toNat < 128

instance (s : String) : Decidable (IsAscii s) :=
  inferInstanceAs (Decidable (∀ c ∈ s.data, c.toNat < 128))

/-- The fact about `String.prototype.toLowerCase` the ASCII reading rests on:
on ASCII text it is ASCII case folding. -/
def FoldsAscii (toLowerCase : String → String) : Prop :=
  ∀ s, IsAscii s → toLowerCase s = asciiLower s

/-- Two characters are the same up to the case of the letters `A`-`Z`: equal,
or one is an upper-case letter and the other its lower-case form. -/
def SameLetter (a b : Char) : Prop :=
  a = b ∨ (65 ≤ a.toNat ∧ a.toNat ≤ 90 ∧ b.toNat = a.toNat + 32) ∨
    (65 ≤ b.toNat ∧ b.toNat ≤ 90 ∧ a.toNat = b.toNat + 32)

/-- Case-insensitive substring, stated without any lower-casing: some
contiguous part of `field` has the length of `term` and agrees with it
character by character up to letter case. -/
def ContainsIgnoringCase (field term : String) : Prop :=
  ∃ part : List Char, part <:+: field.data ∧ List.Forall₂ SameLetter part term.data

/-- The record's relevant field(s) contain the search term as a
case-insensitive substring. -/
def RelevantIgnoringCase (searchCategory term : String) (user : User) : Prop :=
  if searchCategory = "user" then
    ContainsIgnoringCase user.username term ∨ ContainsIgnoringCase user.role term ∨
      ContainsIgnoringCase user.status term ∨ ContainsIgnoringCase user.created term
  else
    match user.get searchCategory with
    | .string s => ContainsIgnoringCase s term
    | _ => False

/-- The fields of the record that the filter looks at for this category are
ASCII text. -/
def SearchedAscii (searchCategory : String) (user : User) : Prop :=
  if searchCategory = "user" then
    IsAscii user.username ∧ IsAscii user.role ∧ IsAscii user.status ∧ IsAscii user.created
  else
    match user.get searchCategory with
    | .string s => IsAscii s
    | _ => True

instance (searchCategory : String) (user : User) :
    Decidable (SearchedAscii searchCategory user) :=
  if h : searchCategory = "user" then
    decidable_of_iff
      (IsAscii user.username ∧ IsAscii user.role ∧ IsAscii user.status ∧
        IsAscii user.created)
      (by simp [SearchedAscii, h])
  else
    match hg : user.get searchCategory with
    | .string s => decidable_of_iff (IsAscii s) (by simp [SearchedAscii, h, hg])
    | .undefined => isTrue (by simp [SearchedAscii, h, hg])
    | .number _ => isTrue (by simp [SearchedAscii, h, hg])

/-- The value is a number. -/
def IsNumber (v : JsValue) : Prop := ∃ n, v = .number n

/-- The value is a string. -/
def IsString (v : JsValue) : Prop := ∃ t, v = .string t

/-- The values of the records under the sort key are mutually comparable: all
of them numbers, or all of them strings. -/
def MutuallyComparable (key : String) (l : List User) : Prop :=
  (∀ u ∈ l, IsNumber (u.get key)) ∨ (∀ u ∈ l, IsString (u.get key))

/-- Non-strict order on values induced by `<`: `x < y` or `x` equals `y`. -/
def jsLe (stringToNumber : String → Option Int) (x y : JsValue) : Prop :=
  jsLt stringToNumber x y = true ∨ x = y

/-! ## Text filter -/

theorem includesChars_iff (pat txt : List Char) :
    includesChars pat txt = true ↔ pat <:+: txt := by
  induction txt with
  | nil =>
    simp [includesChars]
  | cons c cs ih =>
    simp only [includesChars, Bool.or_eq_true, ih, List.infix_cons_iff,
      List.isPrefixOf_iff_prefix]

theorem includes_iff (lower : String → String) (field term : String) :
    includes (lower field) (lower term) = true ↔ ContainsCI lower field term := by
  simp [includes, ContainsCI, includesChars_iff]

theorem includes_empty (lower : String → String) (h0 : lower "" = "") (field : String) :
    includes (lower field) (lower "") = true := by
  rw [includes_iff]
  unfold ContainsCI
  rw [h0]
  exact List.nil_infix

theorem filterE_ok {α ε : Type} (p : α → Except ε Bool) (q : α → Bool) (l : List α)
    (h : ∀ x ∈ l, p x = .ok (q x)) : filterE p l = .ok (l.filter q) := by
  induction l with
  | nil => rfl
  | cons x xs ih =>
    have hx := h x (List.mem_cons_self x xs)
    have hxs := ih (fun y hy => h y (List.mem_cons_of_mem x hy))
    simp only [filterE, hx, hxs, List.filter_cons]

theorem searchMatches_ok (lower : String → String) (term searchCategory : String)
    (user : User)
    (h : searchCategory = "user" ∨ ∃ s, user.get searchCategory = .string s) :
    searchMatches lower term searchCategory user =
      .ok (decide (Relevant lower searchCategory term user)) := by
  by_cases hc : searchCategory = "user"
  · simp only [searchMatches, Relevant, hc, if_true, ← includes_iff]
    congr 1
    simp [Bool.decide_or, Bool.or_assoc]
  · rcases h with h | ⟨s, hs⟩
    · exact absurd h hc
    · simp only [searchMatches, Relevant, hc, if_false, hs, JsValue.toLowerCase,
        ← includes_iff]
      simp

theorem filterE_error {α : Type} (p : α → Except JsError Bool) (l : List α)
    (h : ∃ x ∈ l, p x = .error .typeError) : filterE p l = .error .typeError := by
  induction l with
  | nil =>
    obtain ⟨x, hx, _⟩ := h
    cases hx
  | cons y ys ih =>
    unfold filterE
    cases hy : p y with
    | error e => cases e; rfl
    | ok b =>
      have hys : ∃ x ∈ ys, p x = .error .typeError := by
        obtain ⟨x, hx, hpx⟩ := h
        rcases List.mem_cons.mp hx with rfl | hx
        · rw [hy] at hpx
          cases hpx
        · exact ⟨x, hx, hpx⟩
      simp only [ih hys]

/-- For a category other than `"user"`, as soon as one record holds no string
under that property the filter throws, whatever the case mapping. -/
theorem filteredUsers_throws (lower : String → String) (users : List User)
    (term searchCategory : String) (hc : searchCategory ≠ "user")
    (h : ∃ u ∈ users, ∀ t, u.get searchCategory ≠ .string t) :
    filteredUsers lower term searchCategory users = .error .typeError := by
  apply filterE_error
  obtain ⟨u, hu, hs⟩ := h
  refine ⟨u, hu, ?_⟩
  simp only [searchMatches, hc, if_false]
  cases hg : u.get searchCategory with
  | undefined => rfl
  | number n => rfl
  | string t => exact absurd hg (hs t)

/-! ### Lower-casing both sides against ignoring case -/

theorem toLower_toNat (c : Char) :
    (Char.toLower c).toNat =
      if 65 ≤ c.toNat ∧ c.toNat ≤ 90 then c.toNat + 32 else c.toNat := by
  by_cases h : 65 ≤ c.toNat ∧ c.toNat ≤ 90
  · obtain ⟨n, hn⟩ : ∃ n, c.toNat = n := ⟨_, rfl⟩
    have hc : c = Char.ofNat n := by rw [← hn, Char.ofNat_toNat]
    rw [hn] at h
    subst hc
    rw [if_pos (by rw [hn]; exact h)]
    obtain ⟨h1, h2⟩ := h
    clear hn
    interval_cases n <;> decide
  · rw [if_neg h]
    unfold Char.toLower
    simp only [ge_iff_le]
    rw [if_neg h]

theorem char_eq_of_toNat_eq (a b : Char) (h : a.toNat = b.toNat) : a = b := by
  have := congrArg Char.ofNat h
  simpa using this

theorem toLower_eq_iff_sameLetter (a b : Char) :
    Char.toLower a = Char.toLower b ↔ SameLetter a b := by
  have ha := toLower_toNat a
  have hb := toLower_toNat b
  constructor
  · intro h
    have hn : (Char.toLower a).toNat = (Char.toLower b).toNat := by rw [h]
    rw [ha, hb] at hn
    unfold SameLetter
    by_cases ua : 65 ≤ a.toNat ∧ a.toNat ≤ 90
    · by_cases ub : 65 ≤ b.toNat ∧ b.toNat ≤ 90
      · rw [if_pos ua, if_pos ub] at hn
        exact Or.inl (char_eq_of_toNat_eq a b (by omega))
      · rw [if_pos ua, if_neg ub] at hn
        exact Or.inr (Or.inl ⟨ua.1, ua.2, hn.symm⟩)
    · by_cases ub : 65 ≤ b.toNat ∧ b.toNat ≤ 90
      · rw [if_neg ua, if_pos ub] at hn
        exact Or.inr (Or.inr ⟨ub.1, ub.2, hn⟩)
      · rw [if_neg ua, if_neg ub] at hn
        exact Or.inl (char_eq_of_toNat_eq a b hn)
  · intro h
    apply char_eq_of_toNat_eq
    rw [ha, hb]
    rcases h with h | ⟨h1, h2, h3⟩ | ⟨h1, h2, h3⟩
    · rw [h]
    · rw [if_pos ⟨h1, h2⟩, if_neg (by omega), h3]
    · rw [if_neg (by omega), if_pos ⟨h1, h2⟩, h3]

theorem forall₂_sameLetter_iff (part term : List Char) :
    List.Forall₂ SameLetter part term ↔
      part.map Char.toLower = term.map Char.toLower := by
  induction part generalizing term with
  | nil =>
    cases term with
    | nil => simp
    | cons d ds => simp
  | cons c cs ih =>
    cases term with
    | nil => simp
    | cons d ds =>
      simp only [List.forall₂_cons, List.map_cons, List.cons.injEq, ih,
        toLower_eq_iff_sameLetter]

theorem map_infix_map_iff {α β : Type} (f : α → β) (t l : List α) :
    t.map f <:+: l.map f ↔ ∃ part, part <:+: l ∧ part.map f = t.map f := by
  constructor
  · rintro ⟨pre, post, h⟩
    obtain ⟨l1, l2, hl, h1, h2⟩ := List.map_eq_append_iff.mp h.symm
    obtain ⟨l3, l4, hl1, h3, h4⟩ := List.map_eq_append_iff.mp h1
    refine ⟨l4, ⟨l3, l2, ?_⟩, h4⟩
    rw [hl, hl1]
  · rintro ⟨part, hpart, h⟩
    rw [← h]
    exact hpart.map f

theorem containsCI_iff_ignoringCase (lower : String → String) (hl : FoldsAscii lower)
    (field term : String) (hf : IsAscii field) (ht : IsAscii term) :
    ContainsCI lower field term ↔ ContainsIgnoringCase field term := by
  unfold ContainsCI ContainsIgnoringCase
  rw [hl field hf, hl term ht]
  simp only [asciiLower, map_infix_map_iff, forall₂_sameLetter_iff]

theorem relevant_iff_ignoringCase (lower : String → String) (hl : FoldsAscii lower)
    (searchCategory term : String) (user : User) (ht : IsAscii term)
    (hu : SearchedAscii searchCategory user) :
    Relevant lower searchCategory term user ↔
      RelevantIgnoringCase searchCategory term user := by
  by_cases hc : searchCategory = "user"
  · simp only [SearchedAscii, hc, if_true] at hu
    obtain ⟨h1, h2, h3, h4⟩ := hu
    simp only [Relevant, RelevantIgnoringCase, hc, if_true,
      containsCI_iff_ignoringCase lower hl _ term h1 ht,
      containsCI_iff_ignoringCase lower hl _ term h2 ht,
      containsCI_iff_ignoringCase lower hl _ term h3 ht,
      containsCI_iff_ignoringCase lower hl _ term h4 ht]
  · simp only [SearchedAscii, hc, if_false] at hu
    simp only [Relevant, RelevantIgnoringCase, hc, if_false]
    cases hg : user.get searchCategory with
    | undefined => simp
    | number n => simp
    | string t =>
      rw [hg] at hu
      exact containsCI_iff_ignoringCase lower hl t term hu ht

/-- C1 (amended). Let `toLowerCase` be the case mapping of strings, which folds
`A`-`Z` on ASCII text. When the category is `"user"`, or names a property that
holds a string in every record, `filteredUsers` returns exactly the records of
which a relevant field, lower-cased, contains the lower-cased search term as a
substring (username, role, status or created for `"user"`, otherwise the field
named by the category), in their original order; the empty term keeps every
record; and when the term and the searched fields are ASCII text, the records
returned are exactly those of which a relevant field contains the term as a
case-insensitive substring. -/
theorem filteredUsers_spec (toLowerCase : String → String) (hfold : FoldsAscii toLowerCase)
    (users : List User) (term searchCategory : String)
    (h : searchCategory = "user" ∨ ∀ u ∈ users, ∃ s, u.get searchCategory = .string s) :
    ∃ r, filteredUsers toLowerCase term searchCategory users = .ok r ∧
      r = users.filter (fun u => decide (Relevant toLowerCase searchCategory term u)) ∧
      (∀ u, u ∈ r ↔ u ∈ users ∧ Relevant toLowerCase searchCategory term u) ∧
      r.Sublist users ∧
      (term = "" → r = users) ∧
      (IsAscii term → (∀ u ∈ users, SearchedAscii searchCategory u) →
        ∀ u, u ∈ r ↔ u ∈ users ∧ RelevantIgnoringCase searchCategory term u) := by
  have h0 : toLowerCase "" = "" := by
    rw [hfold "" (by intro c hc; cases hc)]
    rfl
  refine ⟨users.filter (fun u => decide (Relevant toLowerCase searchCategory term u)),
    ?_, rfl, ?_, List.filter_sublist users, ?_, ?_⟩
  · apply filterE_ok
    intro u hu
    apply searchMatches_ok
    rcases h with h | h
    · exact Or.inl h
    · exact Or.inr (h u hu)
  · intro u
    simp [List.mem_filter]
  · intro ht
    subst ht
    rw [List.filter_eq_self]
    intro u hu
    simp only [decide_eq_true_eq]
    by_cases hc : searchCategory = "user"
    · simp only [Relevant, hc, if_true, ← includes_iff, includes_empty toLowerCase h0,
        true_or]
    · rcases h with h | h
      · exact absurd h hc
      · obtain ⟨s, hs⟩ := h u hu
        simp only [Relevant, hc, if_false, hs, ← includes_iff,
          includes_empty toLowerCase h0]
  · intro ht hascii u
    simp only [List.mem_filter, decide_eq_true_eq]
    constructor
    · rintro ⟨hu, hr⟩
      exact ⟨hu, (relevant_iff_ignoringCase toLowerCase hfold _ _ u ht (hascii u hu)).mp hr⟩
    · rintro ⟨hu, hr⟩
      exact ⟨hu, (relevant_iff_ignoringCase toLowerCase hfold _ _ u ht (hascii u hu)).mpr hr⟩

theorem filteredUsers_spec_witness :
    FoldsAscii asciiLower ∧
    ("role" = "user" ∨ ∀ u ∈ [alice, bob], ∃ s, u.get "role" = .string s) ∧
    ∃ r, filteredUsers asciiLower "ADM" "role" [alice, bob] = .ok r ∧
      r = [alice, bob].filter (fun u => decide (Relevant asciiLower "role" "ADM" u)) ∧
      (∀ u, u ∈ r ↔ u ∈ [alice, bob] ∧ Relevant asciiLower "role" "ADM" u) ∧
      r.Sublist [alice, bob] ∧
      ("ADM" = "" → r = [alice, bob]) ∧
      (IsAscii "ADM" → (∀ u ∈ [alice, bob], SearchedAscii "role" u) →
        ∀ u, u ∈ r ↔ u ∈ [alice, bob] ∧ RelevantIgnoringCase "role" "ADM" u) :=
  have hfold : FoldsAscii asciiLower := fun _ _ => rfl
  have hyp : "role" = "user" ∨ ∀ u ∈ [alice, bob], ∃ s, u.get "role" = .string s :=
    Or.inr (fun u _ => ⟨u.role, rfl⟩)
  ⟨hfold, hyp, filteredUsers_spec asciiLower hfold [alice, bob] "ADM" "role" hyp⟩

/-- The filter on the sample records, with ASCII case folding as the case
mapping: the upper-case term `"ADM"` finds alice through her role `"Admin"`,
and the premises of the ASCII reading hold there. -/
theorem filteredUsers_example :
    filteredUsers asciiLower "ADM" "role" [alice, bob] = .ok [alice] ∧
    filteredUsers asciiLower "ALI" "user" [alice, bob] = .ok [alice] ∧
    filteredUsers asciiLower "" "user" [alice, bob] = .ok [alice, bob] ∧
    IsAscii "ADM" ∧ (∀ u ∈ [alice, bob], SearchedAscii "role" u) := by
  decide

/-- C1 (as stated, refuted). With the category `"image"`, a record that has no
image and the empty search term, `filteredUsers` throws a `TypeError` instead
of keeping the record: there is no filtered result, whatever the case
mapping. -/
theorem filteredUsers_image_category_throws :
    filteredUsers asciiLower "" "image" [alice] = .error .typeError ∧
    ¬ ∃ (toLowerCase : String → String) (r : List User),
      filteredUsers toLowerCase "" "image" [alice] = .ok r := by
  refine ⟨by decide, ?_⟩
  rintro ⟨lower, r, hr⟩
  have h : filteredUsers lower "" "image" [alice] = .error .typeError :=
    filteredUsers_throws lower [alice] "" "image" (by decide)
      ⟨alice, List.mem_cons_self _ _, fun t ht => by cases ht⟩
  rw [h] at hr
  cases hr

/-! ## Pagination -/

theorem length_le_totalPages_mul {α : Type} (d : Nat) (hd : 1 ≤ d) (l : List α) :
    l.length ≤ totalPages d l * d := by
  have hd0 : (0 : ℚ) < d := by exact_mod_cast hd
  have h := Nat.le_ceil ((l.length : ℚ) / (d : ℚ))
  rw [div_le_iff₀ hd0] at h
  unfold totalPages
  exact_mod_cast h

theorem totalPages_le {α : Type} (d : Nat) (hd : 1 ≤ d) (l : List α) (k : Nat)
    (h : l.length ≤ k * d) : totalPages d l ≤ k := by
  have hd0 : (0 : ℚ) < d := by exact_mod_cast hd
  unfold totalPages
  rw [Nat.ceil_le, div_le_iff₀ hd0]
  exact_mod_cast h

theorem totalPages_eq_div {α : Type} (d : Nat) (hd : 1 ≤ d) (l : List α) :
    totalPages d l = (l.length + d - 1) / d := by
  apply le_antisymm
  · apply totalPages_le d hd
    have h1 := Nat.div_add_mod (l.length + d - 1) d
    have h2 := Nat.mod_lt (l.length + d - 1) (show d > 0 by omega)
    rw [Nat.mul_comm] at h1
    omega
  · have h := length_le_totalPages_mul d hd l
    rw [Nat.div_le_iff_le_mul_add_pred (by omega)]
    rw [Nat.mul_comm]
    omega

theorem paginatedUsers_succ {α : Type} (d i : Nat) (l : List α) :
    paginatedUsers d ((i : Int) + 1) l = (l.drop (i * d)).take d := by
  have e1 : ((i : Int) + 1 - 1) * (d : Int) = ((i * d : Nat) : Int) := by push_cast; ring
  have e2 : ((i : Int) + 1) * (d : Int) = (((i + 1) * d : Nat) : Int) := by push_cast; ring
  have n1 : ¬ (((i * d : Nat) : Int) < 0) := by omega
  have n2 : ¬ ((((i + 1) * d : Nat) : Int) < 0) := by omega
  simp only [paginatedUsers, slice, e1, e2, if_neg n1, if_neg n2, ← Nat.cast_min,
    Int.toNat_ofNat, Int.toNat_sub]
  by_cases h : i * d ≤ l.length
  · rw [Nat.min_eq_left h, List.take_eq_take, List.length_drop]
    have : (i + 1) * d = i * d + d := by ring
    omega
  · have h2 : l.length ≤ i * d := by omega
    rw [Nat.min_eq_right h2, List.drop_eq_nil_of_le h2, List.drop_eq_nil_of_le (le_refl _)]
    simp

theorem pages_flatten_eq_take {α : Type} (d : Nat) (l : List α) (m : Nat) :
    ((pageNumbers m).map fun p => paginatedUsers d p l).flatten = l.take (m * d) := by
  induction m with
  | zero => simp [pageNumbers]
  | succ m ih =>
    have hm : pageNumbers (m + 1) = pageNumbers m ++ [(m : Int) + 1] := by
      simp [pageNumbers, List.range_succ]
    rw [hm, List.map_append, List.flatten_append, ih]
    have : (m + 1) * d = m * d + d := by ring
    rw [this, List.take_add]
    simp [paginatedUsers_succ]

/-- C3. For every page size of at least 1 (so for `rowsPerPage = 5`), the
slices of pages 1, 2, ..., `totalPages`, concatenated in order, are exactly the
sorted-filtered sequence. -/
theorem paginatedUsers_concat {α : Type} (pageSize : Nat) (h : 1 ≤ pageSize)
    (sorted : List α) :
    ((pageNumbers (totalPages pageSize sorted)).map
      fun p => paginatedUsers pageSize p sorted).flatten = sorted := by
  rw [pages_flatten_eq_take]
  exact List.take_of_length_le (length_le_totalPages_mul pageSize h sorted)

theorem paginatedUsers_concat_witness :
    1 ≤ rowsPerPage ∧
    ((pageNumbers (totalPages rowsPerPage [alice, bob, alice, bob, alice, bob])).map
      fun p => paginatedUsers rowsPerPage p [alice, bob, alice, bob, alice, bob]).flatten =
      [alice, bob, alice, bob, alice, bob] :=
  ⟨by decide, paginatedUsers_concat rowsPerPage (by decide) _⟩

/-- C4 (as stated, refuted). For the empty sequence the page count is 0, not
`max(1, ceil(0 / 5)) = 1`. -/
theorem totalPages_empty_is_zero :
    totalPages rowsPerPage ([] : List User) = 0 ∧
    totalPages rowsPerPage ([] : List User) ≠
      max 1 ⌈(([] : List User).length : ℚ) / (rowsPerPage : ℚ)⌉₊ := by
  have h : totalPages rowsPerPage ([] : List User) = 0 := by
    simp [totalPages]
  refine ⟨h, ?_⟩
  rw [h]
  simp

/-- C4 (amended). For every page size of at least 1 and every sequence of
length n, `totalPages` is the ceiling of n / pageSize: the least k with
n ≤ k * pageSize, that is (n + pageSize - 1) / pageSize rounded down. It equals
`max(1, ceil(n / pageSize))` for a non-empty sequence and is 0 for the empty
one. -/
theorem totalPages_spec {α : Type} (pageSize : Nat) (h : 1 ≤ pageSize) (sorted : List α) :
    sorted.length ≤ totalPages pageSize sorted * pageSize ∧
    (∀ k, sorted.length ≤ k * pageSize → totalPages pageSize sorted ≤ k) ∧
    totalPages pageSize sorted = (sorted.length + pageSize - 1) / pageSize ∧
    (sorted ≠ [] → totalPages pageSize sorted =
      max 1 ⌈(sorted.length : ℚ) / (pageSize : ℚ)⌉₊) ∧
    (sorted = [] → totalPages pageSize sorted = 0) := by
  refine ⟨length_le_totalPages_mul pageSize h sorted, totalPages_le pageSize h sorted,
    totalPages_eq_div pageSize h sorted, ?_, ?_⟩
  · intro hne
    have hlen : 0 < sorted.length := List.length_pos.mpr hne
    have hle := length_le_totalPages_mul pageSize h sorted
    have hpos : 1 ≤ totalPages pageSize sorted := by
      rcases Nat.eq_zero_or_pos (totalPages pageSize sorted) with h0 | h0
      · rw [h0] at hle; omega
      · exact h0
    have : totalPages pageSize sorted = ⌈(sorted.length : ℚ) / (pageSize : ℚ)⌉₊ := rfl
    rw [← this]
    exact (max_eq_right hpos).symm
  · intro hnil
    subst hnil
    simp [totalPages]

theorem totalPages_spec_witness :
    1 ≤ rowsPerPage ∧
    [alice, bob].length ≤ totalPages rowsPerPage [alice, bob] * rowsPerPage ∧
    (∀ k, [alice, bob].length ≤ k * rowsPerPage → totalPages rowsPerPage [alice, bob] ≤ k) ∧
    totalPages rowsPerPage [alice, bob] = ([alice, bob].length + rowsPerPage - 1) / rowsPerPage ∧
    ([alice, bob] ≠ [] → totalPages rowsPerPage [alice, bob] =
      max 1 ⌈([alice, bob].length : ℚ) / (rowsPerPage : ℚ)⌉₊) ∧
    ([alice, bob] = [] → totalPages rowsPerPage [alice, bob] = 0) :=
  ⟨by decide, totalPages_spec rowsPerPage (by decide) [alice, bob]⟩

/-! ## Sort: the order on values -/

theorem strLt_irrefl (a : List Char) : strLt a a = false := by
  induction a with
  | nil => rfl
  | cons c cs ih => simp [strLt, ih]

theorem strLt_asymm (a b : List Char) (h : strLt a b = true) : strLt b a = false := by
  induction a generalizing b with
  | nil => cases b <;> simp [strLt] at h ⊢
  | cons c cs ih =>
    cases b with
    | nil => simp [strLt] at h
    | cons d ds =>
      simp only [strLt] at h ⊢
      split_ifs at h ⊢
      all_goals first | rfl | omega | exact ih ds h

theorem strLt_trans (a b c : List Char) (hab : strLt a b = true) (hbc : strLt b c = true) :
    strLt a c = true := by
  induction a generalizing b c with
  | nil =>
    cases b with
    | nil => simp [strLt] at hab
    | cons d ds =>
      cases c with
      | nil => simp [strLt] at hbc
      | cons e es => simp [strLt]
  | cons x xs ih =>
    cases b with
    | nil => simp [strLt] at hab
    | cons d ds =>
      cases c with
      | nil => simp [strLt] at hbc
      | cons e es =>
        simp only [strLt] at hab hbc ⊢
        split_ifs at hab hbc ⊢
        all_goals first | rfl | omega | exact ih ds es hab hbc

theorem strLt_tri (a b : List Char) : strLt a b = true ∨ a = b ∨ strLt b a = true := by
  induction a generalizing b with
  | nil => cases b <;> simp [strLt]
  | cons c cs ih =>
    cases b with
    | nil => simp [strLt]
    | cons d ds =>
      simp only [strLt]
      by_cases h1 : c.toNat < d.toNat
      · simp [h1]
      · by_cases h2 : d.toNat < c.toNat
        · simp [h1, h2]
        · have hcd : c = d := by
            have h3 : c.toNat = d.toNat := by omega
            have := congrArg Char.ofNat h3
            simpa using this
          subst hcd
          simp only [h1, if_false, List.cons.injEq, true_and]
          exact ih ds

theorem jsLt_irrefl (stn : String → Option Int) (v : JsValue) : jsLt stn v v = false := by
  cases v with
  | undefined => simp [jsLt, toNumeric]
  | number n => simp [jsLt, toNumeric]
  | string t => simp [jsLt, strLt_irrefl]

theorem jsLt_asymm (stn : String → Option Int) (x y : JsValue) (h : jsLt stn x y = true) :
    jsLt stn y x = false := by
  cases x with
  | undefined => simp [jsLt, toNumeric] at h
  | number m =>
    cases y with
    | undefined => simp [jsLt, toNumeric] at h
    | number n =>
      simp only [jsLt, toNumeric, decide_eq_true_eq, decide_eq_false_iff_not] at h ⊢
      omega
    | string t =>
      simp only [jsLt, toNumeric] at h ⊢
      cases hs : stn t with
      | none => simp [hs] at h
      | some k =>
        simp only [hs, decide_eq_true_eq, decide_eq_false_iff_not] at h ⊢
        omega
  | string t =>
    cases y with
    | undefined =>
      simp only [jsLt, toNumeric] at h
      cases hs : stn t <;> simp [hs] at h
    | number n =>
      simp only [jsLt, toNumeric] at h ⊢
      cases hs : stn t with
      | none => simp [hs] at h
      | some k =>
        simp only [hs, decide_eq_true_eq, decide_eq_false_iff_not] at h ⊢
        omega
    | string t2 =>
      simp only [jsLt] at h ⊢
      exact strLt_asymm _ _ h

theorem jsLt_tri (stn : String → Option Int) (S : JsValue → Prop)
    (hS : S = IsNumber ∨ S = IsString) (x y : JsValue) (hx : S x) (hy : S y) :
    jsLt stn x y = true ∨ x = y ∨ jsLt stn y x = true := by
  rcases hS with rfl | rfl
  · obtain ⟨m, rfl⟩ := hx
    obtain ⟨n, rfl⟩ := hy
    simp only [jsLt, toNumeric, decide_eq_true_eq, JsValue.number.injEq]
    omega
  · obtain ⟨a, rfl⟩ := hx
    obtain ⟨b, rfl⟩ := hy
    simp only [jsLt, JsValue.string.injEq]
    rcases strLt_tri a.data b.data with h | h | h
    · exact Or.inl h
    · exact Or.inr (Or.inl (String.ext h))
    · exact Or.inr (Or.inr h)

theorem jsLt_trans (stn : String → Option Int) (S : JsValue → Prop)
    (hS : S = IsNumber ∨ S = IsString) (x y z : JsValue) (hx : S x) (hy : S y) (hz : S z)
    (hxy : jsLt stn x y = true) (hyz : jsLt stn y z = true) : jsLt stn x z = true := by
  rcases hS with rfl | rfl
  · obtain ⟨m, rfl⟩ := hx
    obtain ⟨n, rfl⟩ := hy
    obtain ⟨k, rfl⟩ := hz
    simp only [jsLt, toNumeric, decide_eq_true_eq] at hxy hyz ⊢
    omega
  · obtain ⟨a, rfl⟩ := hx
    obtain ⟨b, rfl⟩ := hy
    obtain ⟨c, rfl⟩ := hz
    simp only [jsLt] at hxy hyz ⊢
    exact strLt_trans _ _ _ hxy hyz

theorem jsLe_total (stn : String → Option Int) (S : JsValue → Prop)
    (hS : S = IsNumber ∨ S = IsString) (x y : JsValue) (hx : S x) (hy : S y) :
    jsLe stn x y ∨ jsLe stn y x := by
  rcases jsLt_tri stn S hS x y hx hy with h | h | h
  · exact Or.inl (Or.inl h)
  · exact Or.inl (Or.inr h)
  · exact Or.inr (Or.inl h)

theorem jsLe_trans (stn : String → Option Int) (S : JsValue → Prop)
    (hS : S = IsNumber ∨ S = IsString) (x y z : JsValue) (hx : S x) (hy : S y) (hz : S z)
    (hxy : jsLe stn x y) (hyz : jsLe stn y z) : jsLe stn x z := by
  rcases hxy with hxy | rfl
  · rcases hyz with hyz | rfl
    · exact Or.inl (jsLt_trans stn S hS x y z hx hy hz hxy hyz)
    · exact Or.inl hxy
  · exact hyz

/-! ## Sort: the sorting procedure -/

theorem insertSorted_perm {α : Type} (cmp : α → α → Int) (x : α) (l : List α) :
    (insertSorted cmp x l).Perm (x :: l) := by
  induction l with
  | nil => exact List.Perm.refl _
  | cons y ys ih =>
    unfold insertSorted
    split_ifs
    · exact (List.Perm.cons y ih).trans (List.Perm.swap x y ys)
    · exact List.Perm.refl _

theorem arraySort_perm {α : Type} (cmp : α → α → Int) (l : List α) :
    (arraySort cmp l).Perm l := by
  induction l with
  | nil => exact List.Perm.refl _
  | cons x xs ih =>
    unfold arraySort
    exact (insertSorted_perm cmp x _).trans (List.Perm.cons x ih)

theorem insertSorted_pairwise {α : Type} (cmp : α → α → Int) (P : α → Prop)
    (le : α → α → Prop)
    (hle : ∀ a b, P a → P b → (¬ cmp a b > 0 ↔ le a b))
    (htot : ∀ a b, P a → P b → le a b ∨ le b a)
    (htrans : ∀ a b c, P a → P b → P c → le a b → le b c → le a c)
    (x : α) (l : List α) (hx : P x) (hl : ∀ y ∈ l, P y) (hs : l.Pairwise le) :
    (insertSorted cmp x l).Pairwise le := by
  induction l with
  | nil => simp [insertSorted]
  | cons y ys ih =>
    have hy : P y := hl y (List.mem_cons_self y ys)
    have hys : ∀ z ∈ ys, P z := fun z hz => hl z (List.mem_cons_of_mem y hz)
    rw [List.pairwise_cons] at hs
    unfold insertSorted
    split_ifs with hgt
    · rw [List.pairwise_cons]
      refine ⟨?_, ih hys hs.2⟩
      intro z hz
      rw [(insertSorted_perm cmp x ys).mem_iff, List.mem_cons] at hz
      rcases hz with rfl | hz
      · rcases htot z y hx hy with h | h
        · exact absurd hgt ((hle z y hx hy).mpr h)
        · exact h
      · exact hs.1 z hz
    · have hxy : le x y := (hle x y hx hy).mp hgt
      rw [List.pairwise_cons]
      refine ⟨?_, List.pairwise_cons.mpr hs⟩
      intro z hz
      rw [List.mem_cons] at hz
      rcases hz with rfl | hz
      · exact hxy
      · exact htrans x y z hx hy (hys z hz) hxy (hs.1 z hz)

theorem arraySort_pairwise {α : Type} (cmp : α → α → Int) (P : α → Prop)
    (le : α → α → Prop)
    (hle : ∀ a b, P a → P b → (¬ cmp a b > 0 ↔ le a b))
    (htot : ∀ a b, P a → P b → le a b ∨ le b a)
    (htrans : ∀ a b c, P a → P b → P c → le a b → le b c → le a c)
    (l : List α) (hl : ∀ y ∈ l, P y) : (arraySort cmp l).Pairwise le := by
  induction l with
  | nil => simp [arraySort]
  | cons x xs ih =>
    have hxs : ∀ z ∈ xs, P z := fun z hz => hl z (List.mem_cons_of_mem x hz)
    unfold arraySort
    apply insertSorted_pairwise cmp P le hle htot htrans x _ (hl x (List.mem_cons_self x xs))
    · intro y hy
      exact hxs y ((arraySort_perm cmp xs).mem_iff.mp hy)
    · exact ih hxs

theorem insertSorted_filter {α : Type} (cmp : α → α → Int) (q : α → Bool)
    (hq : ∀ a b, q a = true → q b = true → ¬ cmp a b > 0) (x : α) (l : List α) :
    (insertSorted cmp x l).filter q = (x :: l).filter q := by
  induction l with
  | nil => simp [insertSorted]
  | cons y ys ih =>
    unfold insertSorted
    split_ifs with hgt
    · rw [List.filter_cons, ih]
      cases hqx : q x
      · simp [List.filter_cons, hqx]
      · cases hqy : q y
        · simp [List.filter_cons, hqx, hqy]
        · exact absurd hgt (hq x y hqx hqy)
    · rfl

theorem arraySort_filter {α : Type} (cmp : α → α → Int) (q : α → Bool)
    (hq : ∀ a b, q a = true → q b = true → ¬ cmp a b > 0) (l : List α) :
    (arraySort cmp l).filter q = l.filter q := by
  induction l with
  | nil => rfl
  | cons x xs ih =>
    unfold arraySort
    rw [insertSorted_filter cmp q hq, List.filter_cons, ih, List.filter_cons]

theorem sortComparator_asc_pos (stn : String → Option Int) (key : String) (a b : User) :
    sortComparator stn ⟨key, "asc"⟩ a b > 0 ↔
      jsLt stn (a.get key) (b.get key) = false ∧ jsLt stn (b.get key) (a.get key) = true := by
  unfold sortComparator
  cases h1 : jsLt stn (a.get key) (b.get key) <;>
    cases h2 : jsLt stn (b.get key) (a.get key) <;> simp

theorem sortComparator_desc_pos (stn : String → Option Int) (key : String) (a b : User) :
    sortComparator stn ⟨key, "desc"⟩ a b > 0 ↔ jsLt stn (a.get key) (b.get key) = true := by
  unfold sortComparator
  cases h1 : jsLt stn (a.get key) (b.get key) <;>
    cases h2 : jsLt stn (b.get key) (a.get key) <;> simp

theorem asc_le_iff (stn : String → Option Int) (S : JsValue → Prop)
    (hS : S = IsNumber ∨ S = IsString) (key : String) (a b : User)
    (ha : S (a.get key)) (hb : S (b.get key)) :
    ¬ sortComparator stn ⟨key, "asc"⟩ a b > 0 ↔ jsLe stn (a.get key) (b.get key) := by
  rw [sortComparator_asc_pos]
  constructor
  · intro h
    rcases jsLt_tri stn S hS _ _ ha hb with h1 | h1 | h1
    · exact Or.inl h1
    · exact Or.inr h1
    · cases h2 : jsLt stn (a.get key) (b.get key)
      · exact absurd ⟨h2, h1⟩ h
      · exact Or.inl h2
  · rintro (h | h) ⟨h1, h2⟩
    · rw [h] at h1
      cases h1
    · rw [h, jsLt_irrefl] at h2
      cases h2

theorem desc_le_iff (stn : String → Option Int) (S : JsValue → Prop)
    (hS : S = IsNumber ∨ S = IsString) (key : String) (a b : User)
    (ha : S (a.get key)) (hb : S (b.get key)) :
    ¬ sortComparator stn ⟨key, "desc"⟩ a b > 0 ↔ jsLe stn (b.get key) (a.get key) := by
  rw [sortComparator_desc_pos]
  constructor
  · intro h
    rcases jsLt_tri stn S hS _ _ hb ha with h1 | h1 | h1
    · exact Or.inl h1
    · exact Or.inr h1
    · exact absurd h1 h
  · rintro (h | h) h1
    · rw [jsLt_asymm stn _ _ h] at h1
      cases h1
    · rw [h, jsLt_irrefl] at h1
      cases h1

theorem sortedUsers_asc_pairwise (stn : String → Option Int) (key : String) (l : List User)
    (h : MutuallyComparable key l) :
    (sortedUsers stn ⟨key, "asc"⟩ l).Pairwise
      (fun a b => jsLe stn (a.get key) (b.get key)) := by
  have main : ∀ S : JsValue → Prop, (S = IsNumber ∨ S = IsString) →
      (∀ u ∈ l, S (u.get key)) →
      (sortedUsers stn ⟨key, "asc"⟩ l).Pairwise
        (fun a b => jsLe stn (a.get key) (b.get key)) := by
    intro S hS hl
    exact arraySort_pairwise _ (fun u => S (u.get key)) _
      (fun a b ha hb => asc_le_iff stn S hS key a b ha hb)
      (fun a b ha hb => jsLe_total stn S hS _ _ ha hb)
      (fun a b c ha hb hc => jsLe_trans stn S hS _ _ _ ha hb hc) l hl
  rcases h with h | h
  · exact main IsNumber (Or.inl rfl) h
  · exact main IsString (Or.inr rfl) h

theorem sortedUsers_desc_pairwise (stn : String → Option Int) (key : String) (l : List User)
    (h : MutuallyComparable key l) :
    (sortedUsers stn ⟨key, "desc"⟩ l).Pairwise
      (fun a b => jsLe stn (b.get key) (a.get key)) := by
  have main : ∀ S : JsValue → Prop, (S = IsNumber ∨ S = IsString) →
      (∀ u ∈ l, S (u.get key)) →
      (sortedUsers stn ⟨key, "desc"⟩ l).Pairwise
        (fun a b => jsLe stn (b.get key) (a.get key)) := by
    intro S hS hl
    exact arraySort_pairwise _ (fun u => S (u.get key)) _
      (fun a b ha hb => desc_le_iff stn S hS key a b ha hb)
      (fun a b ha hb => (jsLe_total stn S hS _ _ ha hb).symm)
      (fun a b c ha hb hc hab hbc => jsLe_trans stn S hS _ _ _ hc hb ha hbc hab) l hl
  rcases h with h | h
  · exact main IsNumber (Or.inl rfl) h
  · exact main IsString (Or.inr rfl) h

theorem sortedUsers_stable (stn : String → Option Int) (key direction : String)
    (hd : direction = "asc" ∨ direction = "desc") (l : List User) (v : JsValue) :
    (sortedUsers stn ⟨key, direction⟩ l).filter (fun u => decide (u.get key = v)) =
      l.filter (fun u => decide (u.get key = v)) := by
  apply arraySort_filter
  intro a b ha hb
  simp only [decide_eq_true_eq] at ha hb
  rcases hd with rfl | rfl
  · rw [sortComparator_asc_pos, ha, hb, jsLt_irrefl]
    simp
  · rw [sortComparator_desc_pos, ha, hb, jsLt_irrefl]
    simp

theorem sortedUsers_desc_eq_reverse (stn : String → Option Int) (key : String)
    (l : List User) (h : MutuallyComparable key l)
    (hnd : (l.map fun u => u.get key).Nodup) :
    sortedUsers stn ⟨key, "desc"⟩ l = (sortedUsers stn ⟨key, "asc"⟩ l).reverse := by
  have pA : (sortedUsers stn ⟨key, "asc"⟩ l).Perm l := arraySort_perm _ l
  have pD : (sortedUsers stn ⟨key, "desc"⟩ l).Perm l := arraySort_perm _ l
  have mA : ((sortedUsers stn ⟨key, "asc"⟩ l).map fun u => u.get key).Nodup :=
    ((pA.map fun u => u.get key).nodup_iff).mpr hnd
  have mD : ((sortedUsers stn ⟨key, "desc"⟩ l).map fun u => u.get key).Nodup :=
    ((pD.map fun u => u.get key).nodup_iff).mpr hnd
  have nA : (sortedUsers stn ⟨key, "asc"⟩ l).Pairwise (fun a b => a.get key ≠ b.get key) := by
    unfold List.Nodup at mA
    exact List.pairwise_map.mp mA
  have nD : (sortedUsers stn ⟨key, "desc"⟩ l).Pairwise (fun a b => a.get key ≠ b.get key) := by
    unfold List.Nodup at mD
    exact List.pairwise_map.mp mD
  haveI : IsAntisymm User (fun a b => jsLt stn (b.get key) (a.get key) = true) :=
    ⟨fun a b h1 h2 => by rw [jsLt_asymm stn _ _ h1] at h2; cases h2⟩
  apply List.eq_of_perm_of_sorted
    (r := fun a b => jsLt stn (b.get key) (a.get key) = true)
  · exact pD.trans (pA.symm.trans (List.reverse_perm _).symm)
  · refine List.Pairwise.imp₂ ?_ (sortedUsers_desc_pairwise stn key l h) nD
    rintro a b (h1 | h1) h2
    · exact h1
    · exact absurd h1.symm h2
  · show List.Pairwise _ _
    rw [List.pairwise_reverse]
    refine List.Pairwise.imp₂ ?_ (sortedUsers_asc_pairwise stn key l h) nA
    rintro a b (h1 | h1) h2
    · exact h1
    · exact absurd h1 h2

theorem stable_sorted_unique {α κ : Type} [DecidableEq κ] (key : α → κ)
    (le : κ → κ → Prop) (hanti : ∀ x y, le x y → le y x → x = y) (r1 r2 : List α)
    (hp : r1.Perm r2)
    (h1 : r1.Pairwise fun a b => le (key a) (key b))
    (h2 : r2.Pairwise fun a b => le (key a) (key b))
    (hst : ∀ v, r1.filter (fun u => decide (key u = v)) =
      r2.filter (fun u => decide (key u = v))) : r1 = r2 := by
  induction r1 generalizing r2 with
  | nil => exact (List.nil_perm.mp hp).symm
  | cons a t1 ih =>
    cases r2 with
    | nil => exact absurd hp.symm (List.nil_perm.not.mpr (List.cons_ne_nil a t1))
    | cons b t2 =>
      rw [List.pairwise_cons] at h1 h2
      have hk : key a = key b := by
        have ha : a ∈ b :: t2 := hp.mem_iff.mp (List.mem_cons_self a t1)
        have hb : b ∈ a :: t1 := hp.mem_iff.mpr (List.mem_cons_self b t2)
        rcases List.mem_cons.mp ha with rfl | ha
        · rfl
        · rcases List.mem_cons.mp hb with rfl | hb
          · rfl
          · exact hanti _ _ (h1.1 b hb) (h2.1 a ha)
      have hab : a = b := by
        have := hst (key a)
        simp only [List.filter_cons, hk, decide_True, if_true] at this
        exact (List.cons.inj this).1
      subst hab
      congr 1
      apply ih t2 hp.cons_inv h1.2 h2.2
      intro v
      have := hst v
      simp only [List.filter_cons] at this
      split_ifs at this
      · exact (List.cons.inj this).2
      · exact this

theorem jsLe_antisymm (stn : String → Option Int) (x y : JsValue)
    (hxy : jsLe stn x y) (hyx : jsLe stn y x) : x = y := by
  rcases hxy with h | h
  · rcases hyx with h2 | h2
    · rw [jsLt_asymm stn _ _ h] at h2
      cases h2
    · exact h2.symm
  · exact h

/-- The result of `sortedUsers` does not depend on the sorting procedure: any
permutation of the input that is ordered by the key and keeps the relative
order of the records sharing a key value is the one returned. -/
theorem sortedUsers_unique (stn : String → Option Int) (key : String) (l r : List User)
    (h : MutuallyComparable key l) :
    (r.Perm l → r.Pairwise (fun a b => jsLe stn (a.get key) (b.get key)) →
      (∀ v, r.filter (fun u => decide (u.get key = v)) =
        l.filter (fun u => decide (u.get key = v))) →
      r = sortedUsers stn ⟨key, "asc"⟩ l) ∧
    (r.Perm l → r.Pairwise (fun a b => jsLe stn (b.get key) (a.get key)) →
      (∀ v, r.filter (fun u => decide (u.get key = v)) =
        l.filter (fun u => decide (u.get key = v))) →
      r = sortedUsers stn ⟨key, "desc"⟩ l) := by
  constructor
  · intro hp hs hst
    apply stable_sorted_unique (fun u : User => u.get key) (jsLe stn)
      (jsLe_antisymm stn) r _ (hp.trans (arraySort_perm _ l).symm) hs
      (sortedUsers_asc_pairwise stn key l h)
    intro v
    rw [hst v]
    exact (sortedUsers_stable stn key "asc" (Or.inl rfl) l v).symm
  · intro hp hs hst
    apply stable_sorted_unique (fun u : User => u.get key) (fun x y => jsLe stn y x)
      (fun x y h1 h2 => jsLe_antisymm stn x y h2 h1) r _
      (hp.trans (arraySort_perm _ l).symm) hs (sortedUsers_desc_pairwise stn key l h)
    intro v
    rw [hst v]
    exact (sortedUsers_stable stn key "desc" (Or.inr rfl) l v).symm

/-- C2. When the values under the sort key are mutually comparable (all
numbers or all strings), `sortedUsers` returns, in both directions, a
permutation of its input that is ordered by the key (non-decreasing for
`"asc"`, non-increasing for `"desc"`) and in which the records sharing a key
value keep their pre-sort relative order; when the key values are pairwise
distinct the `"desc"` result is the reverse of the `"asc"` result. -/
theorem sortedUsers_spec (stringToNumber : String → Option Int) (key : String)
    (l : List User) (h : MutuallyComparable key l) :
    ((sortedUsers stringToNumber ⟨key, "asc"⟩ l).Perm l ∧
      (sortedUsers stringToNumber ⟨key, "asc"⟩ l).Pairwise
        (fun a b => jsLe stringToNumber (a.get key) (b.get key)) ∧
      ∀ v, (sortedUsers stringToNumber ⟨key, "asc"⟩ l).filter
          (fun u => decide (u.get key = v)) = l.filter (fun u => decide (u.get key = v))) ∧
    ((sortedUsers stringToNumber ⟨key, "desc"⟩ l).Perm l ∧
      (sortedUsers stringToNumber ⟨key, "desc"⟩ l).Pairwise
        (fun a b => jsLe stringToNumber (b.get key) (a.get key)) ∧
      ∀ v, (sortedUsers stringToNumber ⟨key, "desc"⟩ l).filter
          (fun u => decide (u.get key = v)) = l.filter (fun u => decide (u.get key = v))) ∧
    ((l.map fun u => u.get key).Nodup →
      sortedUsers stringToNumber ⟨key, "desc"⟩ l =
        (sortedUsers stringToNumber ⟨key, "asc"⟩ l).reverse) :=
  ⟨⟨arraySort_perm _ l, sortedUsers_asc_pairwise stringToNumber key l h,
      sortedUsers_stable stringToNumber key "asc" (Or.inl rfl) l⟩,
    ⟨arraySort_perm _ l, sortedUsers_desc_pairwise stringToNumber key l h,
      sortedUsers_stable stringToNumber key "desc" (Or.inr rfl) l⟩,
    sortedUsers_desc_eq_reverse stringToNumber key l h⟩

theorem sortedUsers_spec_witness :
    MutuallyComparable "userId" [bob, carol, alice] ∧
    (([bob, carol, alice].map fun u => u.get "userId").Nodup ∧
      sortedUsers (fun _ => none) ⟨"userId", "desc"⟩ [bob, carol, alice] =
        (sortedUsers (fun _ => none) ⟨"userId", "asc"⟩ [bob, carol, alice]).reverse) ∧
    ((sortedUsers (fun _ => none) ⟨"userId", "asc"⟩ [bob, carol, alice]).Perm
        [bob, carol, alice] ∧
      (sortedUsers (fun _ => none) ⟨"userId", "asc"⟩ [bob, carol, alice]).Pairwise
        (fun a b => jsLe (fun _ => none) (a.get "userId") (b.get "userId")) ∧
      ∀ v, (sortedUsers (fun _ => none) ⟨"userId", "asc"⟩ [bob, carol, alice]).filter
          (fun u => decide (u.get "userId" = v)) =
        [bob, carol, alice].filter (fun u => decide (u.get "userId" = v))) :=
  have hyp : MutuallyComparable "userId" [bob, carol, alice] :=
    Or.inl (fun u hu => by
      simp only [List.mem_cons, List.mem_singleton, List.not_mem_nil, or_false] at hu
      rcases hu with rfl | rfl | rfl
      · exact ⟨2, rfl⟩
      · exact ⟨3, rfl⟩
      · exact ⟨1, rfl⟩)
  have hnd : ([bob, carol, alice].map fun u => u.get "userId").Nodup := by decide
  ⟨hyp, ⟨hnd, (sortedUsers_spec (fun _ => none) "userId" [bob, carol, alice] hyp).2.2 hnd⟩,
    (sortedUsers_spec (fun _ => none) "userId" [bob, carol, alice] hyp).1⟩

/-- With a tie under the sort key the two directions are not reverses of each
other: alice and carol (both `"Admin"`) keep their order in both. -/
theorem sortedUsers_tie_example :
    sortedUsers (fun _ => none) ⟨"role", "asc"⟩ [alice, bob, carol] = [alice, carol, bob] ∧
    sortedUsers (fun _ => none) ⟨"role", "desc"⟩ [alice, bob, carol] = [bob, alice, carol] := by
  decide

/-! ## Selection and CRUD handlers -/

theorem foldl_push_eq_map {α β : Type} (f : α → β) (l : List α) (acc : List β) :
    l.foldl (fun rows x => rows ++ [f x]) acc = acc ++ l.map f := by
  induction l generalizing acc with
  | nil => simp
  | cons x xs ih => simp [ih]

/-- C10. Whatever the rest of the state (search term, filters, sort, page),
`selectAllCheckbox` with the box checked sets the selection to the identifiers
of all records of the store, one per record in store order, with the box
unchecked it sets the selection to empty; nothing else in the state changes, in
particular not the store. -/
theorem selectAllCheckbox_spec (s : State) :
    selectAllCheckbox s true = { s with selectedRows := s.users.map fun u => u.userId } ∧
    selectAllCheckbox s false = { s with selectedRows := [] } ∧
    (selectAllCheckbox s true).users = s.users ∧
    (selectAllCheckbox s false).users = s.users := by
  refine ⟨?_, rfl, rfl, rfl⟩
  simp [selectAllCheckbox, foldl_push_eq_map]

/-- C7. A single delete or a bulk delete whose confirmation is cancelled, and
a bulk delete with an empty selection (which shows no confirmation dialog and
emits exactly one error toast), leave the whole state, so the store and the
selection, unchanged and emit no success toast. -/
theorem aborted_deletes_never_mutate (s : State) (userId : JsValue) (isConfirmed : Bool) :
    ((handleDelete s userId false).1 = s ∧
      ∀ m, Effect.toastSuccess m ∉ (handleDelete s userId false).2) ∧
    ((handleBulkDelete s false).1 = s ∧
      ∀ m, Effect.toastSuccess m ∉ (handleBulkDelete s false).2) ∧
    (s.selectedRows = [] →
      (handleBulkDelete s isConfirmed).1 = s ∧
      (handleBulkDelete s isConfirmed).2 = [.toastError "No users selected for deletion"]) := by
  refine ⟨⟨rfl, ?_⟩, ⟨?_, ?_⟩, ?_⟩
  · intro m
    simp [handleDelete]
  · by_cases h : s.selectedRows.length = 0 <;> simp [handleBulkDelete, h]
  · intro m
    by_cases h : s.selectedRows.length = 0 <;> simp [handleBulkDelete, h]
  · intro h
    simp [handleBulkDelete, h]

theorem aborted_deletes_never_mutate_witness :
    (initialState [alice, bob]).selectedRows = [] ∧
    (handleBulkDelete (initialState [alice, bob]) true).1 = initialState [alice, bob] ∧
    (handleBulkDelete (initialState [alice, bob]) true).2 =
      [.toastError "No users selected for deletion"] :=
  ⟨rfl, (aborted_deletes_never_mutate (initialState [alice, bob]) (.number 1) true).2.2 rfl⟩

/-- C9 (as stated, refuted). On the initial state with an empty store,
`handleEdit` for an identifier that no record has is not a no-op: it opens the
edit dialog and replaces the record chosen for editing by `undefined`. -/
theorem handleEdit_missing_opens_dialog :
    (initialState []).isModalOpen = false ∧
    (handleEdit (initialState []) (.number 1)).isModalOpen = true ∧
    (initialState []).selectedUser = .null ∧
    (handleEdit (initialState []) (.number 1)).selectedUser = .undefined ∧
    handleEdit (initialState []) (.number 1) ≠ initialState [] := by
  decide

/-- C9 (amended). For an identifier that no record of the store has,
`handleEdit` leaves the records and the selection (and the view state)
unchanged, sets the record chosen for editing to `undefined` and sets the
dialog-open flag. -/
theorem handleEdit_missing (s : State) (userId : JsValue)
    (h : ∀ u ∈ s.users, u.userId ≠ userId) :
    handleEdit s userId = { s with selectedUser := .undefined, isModalOpen := true } ∧
    (handleEdit s userId).users = s.users ∧
    (handleEdit s userId).selectedRows = s.selectedRows ∧
    (handleEdit s userId).selectedUser = .undefined ∧
    (handleEdit s userId).isModalOpen = true := by
  have hfind : findUser s.users userId = .undefined := by
    have : s.users.find? (fun user => decide (user.userId = userId)) = none := by
      rw [List.find?_eq_none]
      intro u hu
      simpa using h u hu
    simp [findUser, this]
  simp [handleEdit, hfind]

theorem handleEdit_missing_witness :
    (∀ u ∈ (initialState [alice, bob]).users, u.userId ≠ .number 7) ∧
    (handleEdit (initialState [alice, bob]) (.number 7) =
      { initialState [alice, bob] with selectedUser := .undefined, isModalOpen := true } ∧
    (handleEdit (initialState [alice, bob]) (.number 7)).users =
      (initialState [alice, bob]).users ∧
    (handleEdit (initialState [alice, bob]) (.number 7)).selectedRows =
      (initialState [alice, bob]).selectedRows ∧
    (handleEdit (initialState [alice, bob]) (.number 7)).selectedUser = .undefined ∧
    (handleEdit (initialState [alice, bob]) (.number 7)).isModalOpen = true) :=
  ⟨by decide, handleEdit_missing (initialState [alice, bob]) (.number 7) (by decide)⟩

theorem nodup_getElem?_inj {β : Type} (l : List β) (hn : l.Nodup) (i j : Nat) (x : β)
    (hi : l[i]? = some x) (hj : l[j]? = some x) : i = j := by
  have bi : i < l.length := (List.getElem?_eq_some.mp hi).1
  have bj : j < l.length := (List.getElem?_eq_some.mp hj).1
  by_contra hne
  rcases Nat.lt_or_gt_of_ne hne with hlt | hgt
  · exact List.nodup_iff_getElem?_ne_getElem?.mp hn i j hlt bj (hi.trans hj.symm)
  · exact List.nodup_iff_getElem?_ne_getElem?.mp hn j i hgt bi (hj.trans hi.symm)

/-- C8. `onSave` keeps the length of the store; when identifiers are unique
and the updated record carries the identifier of the record at index i, the
saved store holds the updated record at index i and the original record at
every other index; when no record carries that identifier the store is
unchanged. In every case the edit dialog is closed and the selection is
unchanged. -/
theorem onSave_spec (s : State) (updatedUser : User) :
    (onSave s updatedUser).users.length = s.users.length ∧
    (∀ (i : Nat) (u : User), (s.users.map fun x => x.userId).Nodup →
      s.users[i]? = some u → u.userId = updatedUser.userId →
      (onSave s updatedUser).users[i]? = some updatedUser ∧
      ∀ j, j ≠ i → (onSave s updatedUser).users[j]? = s.users[j]?) ∧
    ((∀ u ∈ s.users, u.userId ≠ updatedUser.userId) →
      (onSave s updatedUser).users = s.users) ∧
    (onSave s updatedUser).isModalOpen = false ∧
    (onSave s updatedUser).selectedRows = s.selectedRows := by
  refine ⟨by simp [onSave], ?_, ?_, rfl, rfl⟩
  · intro i u hn hi hu
    constructor
    · simp [onSave, List.getElem?_map, hi, hu]
    · intro j hj
      simp only [onSave, List.getElem?_map]
      cases hw : s.users[j]? with
      | none => rfl
      | some w =>
        have hne : w.userId ≠ updatedUser.userId := by
          intro heq
          apply hj
          apply nodup_getElem?_inj _ hn j i updatedUser.userId
          · simp [List.getElem?_map, hw, heq]
          · simp [List.getElem?_map, hi, hu]
        simp [hne]
  · intro h
    simp only [onSave]
    conv_rhs => rw [← List.map_id s.users]
    apply List.map_congr_left
    intro u hu
    simp [h u hu]

theorem onSave_spec_witness :
    ((initialState [alice, bob]).users.map fun x => x.userId).Nodup ∧
    (initialState [alice, bob]).users[1]? = some bob ∧
    bob.userId = ({ bob with role := "Moderator" } : User).userId ∧
    ((onSave (initialState [alice, bob]) { bob with role := "Moderator" }).users[1]? =
        some { bob with role := "Moderator" } ∧
      ∀ j, j ≠ 1 →
        (onSave (initialState [alice, bob]) { bob with role := "Moderator" }).users[j]? =
          (initialState [alice, bob]).users[j]?) ∧
    (∀ u ∈ (initialState [alice, bob]).users, u.userId ≠ carol.userId) ∧
    (onSave (initialState [alice, bob]) carol).users = (initialState [alice, bob]).users :=
  ⟨by decide, by decide, rfl,
    (onSave_spec (initialState [alice, bob]) { bob with role := "Moderator" }).2.1 1 bob
      (by decide) (by decide) rfl,
    by decide,
    (onSave_spec (initialState [alice, bob]) carol).2.2.1 (by decide)⟩

/-- An instance of `onSave` with the premises discharged: saving an edited bob
replaces index 1 and keeps index 0. -/
theorem onSave_example :
    (onSave (initialState [alice, bob]) { bob with role := "Moderator" }).users =
      [alice, { bob with role := "Moderator" }] := by
  decide

/-- When identifiers are unique in the store and the selection holds N ≥ 1
distinct identifiers, each of a record in the store, a confirmed bulk delete
removes exactly N records, leaves no selected identifier in the store, keeps
the other records in order, empties the selection and emits one success toast
naming N. -/
theorem handleBulkDelete_confirmed (s : State)
    (hu : (s.users.map fun u => u.userId).Nodup) (hs : s.selectedRows.Nodup)
    (hin : ∀ id ∈ s.selectedRows, id ∈ s.users.map fun u => u.userId)
    (hN : 1 ≤ s.selectedRows.length) :
    (handleBulkDelete s true).1.users.length + s.selectedRows.length = s.users.length ∧
    (∀ u ∈ (handleBulkDelete s true).1.users, u.userId ∉ s.selectedRows) ∧
    (handleBulkDelete s true).1.users =
      s.users.filter (fun u => decide (u.userId ∉ s.selectedRows)) ∧
    (handleBulkDelete s true).1.selectedRows = [] ∧
    (handleBulkDelete s true).2 =
      [.swalFire ("You are about to delete " ++ toString s.selectedRows.length ++
          " user(s). This action cannot be undone."),
        .toastSuccess (toString s.selectedRows.length ++ " user(s) deleted successfully")] := by
  have h0 : ¬ s.selectedRows.length = 0 := by omega
  have hsel : ((s.users.filter fun u => s.selectedRows.contains u.userId).map
      fun u => u.userId).Perm s.selectedRows := by
    rw [List.perm_ext_iff_of_nodup
      (List.Nodup.sublist ((List.filter_sublist s.users).map _) hu) hs]
    intro id
    simp only [List.mem_map, List.mem_filter]
    constructor
    · rintro ⟨u, ⟨_, h2⟩, rfl⟩
      simpa using h2
    · intro h
      obtain ⟨u, hu1, hu2⟩ := List.mem_map.mp (hin id h)
      exact ⟨u, ⟨hu1, by rw [hu2]; simpa using h⟩, hu2⟩
  have hlen := hsel.length_eq
  rw [List.length_map] at hlen
  have hsplit := List.length_eq_length_filter_add (l := s.users)
    (fun u => s.selectedRows.contains u.userId)
  refine ⟨?_, ?_, ?_, ?_, ?_⟩
  · simp only [handleBulkDelete, h0, if_false, if_true]
    omega
  · intro u hmem
    simp only [handleBulkDelete, h0, if_false, if_true, List.mem_filter] at hmem
    simpa using hmem.2
  · simp only [handleBulkDelete, h0, if_false, if_true]
    apply List.filter_congr
    intro u _
    simp
  · simp [handleBulkDelete, h0]
  · simp [handleBulkDelete, h0]

/-- Whatever the decision, `handleDelete` leaves the selection as it was. -/
theorem handleDelete_selectedRows (s : State) (userId : JsValue) (isConfirmed : Bool) :
    (handleDelete s userId isConfirmed).1.selectedRows = s.selectedRows := by
  cases isConfirmed <;> rfl

/-- C6 (failing input). From the seed `[alice, bob]`, checking alice's row and
then deleting alice with a confirmed single delete leaves alice's identifier in
the selection although no record of the store carries it any more. -/
theorem handleDelete_leaves_dangling_selection :
    afterSelectThenDelete.users = [bob] ∧
    afterSelectThenDelete.selectedRows = [.number 1] ∧
    (∀ u ∈ afterSelectThenDelete.users, u.userId ≠ .number 1) ∧
    ¬ (∀ id ∈ afterSelectThenDelete.selectedRows,
        id ∈ afterSelectThenDelete.users.map fun u => u.userId) := by
  decide

/-- C5 (failing input). In the state reached by checking alice's row and then
deleting alice with a confirmed single delete, the selection holds N = 1
identifier; a confirmed bulk delete then removes no record (the store keeps its
1 record) and still emits the success toast naming 1. -/
theorem handleBulkDelete_counts_dangling_selection :
    afterSelectThenDelete.selectedRows.length = 1 ∧
    afterSelectThenDelete.users.length = 1 ∧
    (handleBulkDelete afterSelectThenDelete true).1.users.length = 1 ∧
    (handleBulkDelete afterSelectThenDelete true).1.selectedRows = [] ∧
    (handleBulkDelete afterSelectThenDelete true).2 =
      [.swalFire "You are about to delete 1 user(s). This action cannot be undone.",
        .toastSuccess "1 user(s) deleted successfully"] := by
  decide

end UserPage
